import Mathlib

/-
Verification of the judged-transition engine of the `elsa` repository:
a shallow embedding of the Decision Parser (src/llm.rs), the Judge
Protocol (src/llm.rs), the scenario graph (src/game_tree.rs) and the
Scenario Graph Walker loop body (src/game.rs), together with theorems
about the specified behaviour.

Modelling conventions:
  - Rust `String` becomes Lean `String`, manipulated through `String.data`
    (a `List Char`) where character-level behaviour matters.
  - `HashMap<String, GameNode>` becomes an association list with
    `List.lookup`; the game only reads the map through `get`.
  - The two regexes of `parse_decision` are modelled operationally:
    `(?s)<think>(.*?)</think>` with `replace_all` is `stripThink`
    (leftmost match, shortest close, scan continues after the match);
    the leftmost match of `(?s)\x7b[^\x7b\x7d]*\x7d` is `findFlat`.
  - `serde_json::from_str::<LlmDecision>` is modelled by a character
    level parser for a flat JSON object (the extracted span contains no
    inner braces, so nested objects cannot occur) followed by the derive
    semantics for the struct: fields read in textual order, duplicate
    known field is an error, wrong type is an error, unknown fields are
    skipped, missing field at the end is an error.
  - Rust functions returning `anyhow::Result` are modelled with
    `Except`/`Option`; the distinct error messages of `parse_decision`
    give the two `ParseError` variants.
  - The unbounded recursion of `longest_path` is modelled with explicit
    fuel (`none` = the recursion did not complete within the fuel);
    the termination claim C4 is stated as stabilisation of the value
    for every large enough fuel.
-/

namespace Elsa

-- ===========================================================================
-- Chat messages (src/llm.rs, struct ChatMessage)
-- ===========================================================================

structure ChatMessage where
  role : String
  content : String
deriving DecidableEq, Repr

def ChatMessage.system (content : String) : ChatMessage :=
  ⟨"system", content⟩

def ChatMessage.user (content : String) : ChatMessage :=
  ⟨"user", content⟩

def ChatMessage.assistant (content : String) : ChatMessage :=
  ⟨"assistant", content⟩

-- ===========================================================================
-- The LLM decision struct (src/llm.rs, struct LlmDecision)
-- ===========================================================================

structure LlmDecision where
  decision : String
  reason : String
deriving DecidableEq, Repr

-- ===========================================================================
-- Decision Parser, step 1: strip <think>...</think> spans
-- (src/llm.rs, parse_decision, regex (?s)<think>(.*?)</think> + replace_all)
-- ===========================================================================

/-- First occurrence of `pat` inside `s`: returns the part strictly before
the occurrence and the part strictly after it. -/
def splitFirst (pat : List Char) : List Char → Option (List Char × List Char)
  | [] => if pat.isEmpty then some ([], []) else none
  | c :: rest =>
    if pat.isPrefixOf (c :: rest) then
      some ([], (c :: rest).drop pat.length)
    else
      match splitFirst pat rest with
      | some (b, a) => some (c :: b, a)
      | none => none

def openTag : List Char := "<think>".data

def closeTag : List Char := "</think>".data

/-- One pass of `replace_all` for the non-greedy think regex, with fuel.
A match starts at the first occurrence of the opening tag and ends at the
first following occurrence of the closing tag; scanning resumes after the
match. If the opening tag has no closing tag after it, no occurrence of
the pattern remains in the text, so the text is returned unchanged. -/
def stripThinkF : Nat → List Char → List Char
  | 0, s => s
  | fuel + 1, s =>
    match splitFirst openTag s with
    | none => s
    | some (pre, rest) =>
      match splitFirst closeTag rest with
      | none => s
      | some (_, post) => pre ++ stripThinkF fuel post

/-- Each removed span has at least 15 characters, so `s.length` rounds of
fuel always suffice; the fuel never runs out on any input. -/
def stripThink (s : List Char) : List Char := stripThinkF s.length s

-- ===========================================================================
-- Decision Parser, step 2: first flat brace span
-- (src/llm.rs, parse_decision, regex (?s)\x7b[^\x7b\x7d]*\x7d + find)
-- ===========================================================================

def openBrace : Char := '\x7b'

def closeBrace : Char := '\x7d'

def notBrace (c : Char) : Bool := !(c == openBrace || c == closeBrace)

/-- Leftmost match of the flat-object regex: the first opening brace whose
next brace character is a closing brace, matched up to that closing
brace. At an opening brace whose next brace character is another opening
brace the regex cannot match, and the scan moves on. -/
def findFlat : List Char → Option (List Char)
  | [] => none
  | c :: rest =>
    if c = openBrace then
      match rest.dropWhile notBrace with
      | d :: _ =>
        if d = closeBrace then
          some (openBrace :: (rest.takeWhile notBrace ++ [closeBrace]))
        else findFlat rest
      | [] => none
    else findFlat rest

-- ===========================================================================
-- Decision Parser, step 3: serde_json parse of the flat object
-- ===========================================================================

inductive JsonVal where
  | str (s : String)
  | num (tok : List Char)
  | bool (b : Bool)
  | null
  | arr (vs : List JsonVal)

def isJsonWs (c : Char) : Bool := c == ' ' || c == '\t' || c == '\n' || c == '\r'

def skipWs (s : List Char) : List Char := s.dropWhile isJsonWs

def hexVal (c : Char) : Option Nat :=
  if '0' ≤ c ∧ c ≤ '9' then some (c.toNat - 48)
  else if 'a' ≤ c ∧ c ≤ 'f' then some (c.toNat - 87)
  else if 'A' ≤ c ∧ c ≤ 'F' then some (c.toNat - 55)
  else none

def parseHex4 : List Char → Option (Nat × List Char)
  | a :: b :: c :: d :: rest =>
    match hexVal a, hexVal b, hexVal c, hexVal d with
    | some va, some vb, some vc, some vd =>
      some ((((va * 16 + vb) * 16 + vc) * 16 + vd), rest)
    | _, _, _, _ => none
  | _ => none

def escChar (c : Char) : Option Char :=
  if c = '"' then some '"'
  else if c = '\\' then some '\\'
  else if c = '/' then some '/'
  else if c = 'b' then some (Char.ofNat 8)
  else if c = 'f' then some (Char.ofNat 12)
  else if c = 'n' then some '\n'
  else if c = 'r' then some '\r'
  else if c = 't' then some '\t'
  else none

/-- Body of a JSON string after its opening quote: returns the decoded
characters and the rest after the closing quote. Mirrors serde_json:
escape sequences, surrogate pairs for \u, rejection of lone surrogates
and of unescaped control characters. -/
def pStrBody : Nat → List Char → Option (List Char × List Char)
  | 0, _ => none
  | fuel + 1, s =>
    match s with
    | [] => none
    | c :: rest =>
      if c = '"' then some ([], rest)
      else if c = '\\' then
        match rest with
        | [] => none
        | e :: rest2 =>
          if e = 'u' then
            match parseHex4 rest2 with
            | none => none
            | some (n, rest3) =>
              if 0xD800 ≤ n ∧ n ≤ 0xDBFF then
                match rest3 with
                | '\\' :: 'u' :: rest4 =>
                  match parseHex4 rest4 with
                  | some (m, rest5) =>
                    if 0xDC00 ≤ m ∧ m ≤ 0xDFFF then
                      match pStrBody fuel rest5 with
                      | some (out, fin) =>
                        some (Char.ofNat (0x10000 + (n - 0xD800) * 0x400 + (m - 0xDC00)) :: out, fin)
                      | none => none
                    else none
                  | none => none
                | _ => none
              else if 0xDC00 ≤ n ∧ n ≤ 0xDFFF then none
              else
                match pStrBody fuel rest3 with
                | some (out, fin) => some (Char.ofNat n :: out, fin)
                | none => none
          else
            match escChar e with
            | none => none
            | some ch =>
              match pStrBody fuel rest2 with
              | some (out, fin) => some (ch :: out, fin)
              | none => none
      else if c.toNat < 0x20 then none
      else
        match pStrBody fuel rest with
        | some (out, fin) => some (c :: out, fin)
        | none => none

/-- Parse a JSON string literal given the text after its opening quote. -/
def pString (s : List Char) : Option (List Char × List Char) :=
  pStrBody (s.length + 1) s

def isDigit (c : Char) : Bool := '0' ≤ c && c ≤ '9'

/-- Optional fraction part of a JSON number. -/
def pFrac (s : List Char) : Option (List Char × List Char) :=
  match s with
  | '.' :: r =>
    let ds := r.takeWhile isDigit
    if ds.isEmpty then none else some ('.' :: ds, r.dropWhile isDigit)
  | _ => some ([], s)

/-- Optional exponent part of a JSON number. -/
def pExp (s : List Char) : Option (List Char × List Char) :=
  match s with
  | c :: r =>
    if c = 'e' ∨ c = 'E' then
      match r with
      | '+' :: rr =>
        let ds := rr.takeWhile isDigit
        if ds.isEmpty then none else some (c :: '+' :: ds, rr.dropWhile isDigit)
      | '-' :: rr =>
        let ds := rr.takeWhile isDigit
        if ds.isEmpty then none else some (c :: '-' :: ds, rr.dropWhile isDigit)
      | _ =>
        let ds := r.takeWhile isDigit
        if ds.isEmpty then none else some (c :: ds, r.dropWhile isDigit)
    else some ([], s)
  | [] => some ([], s)

/-- JSON number token: minus sign, integer part without leading zeros,
optional fraction, optional exponent. Returns the token characters. -/
def pNum (s : List Char) : Option (List Char × List Char) :=
  let (negPart, s1) : List Char × List Char :=
    match s with
    | '-' :: r => (['-'], r)
    | _ => ([], s)
  match s1 with
  | [] => none
  | c :: r =>
    let cont : List Char × List Char → Option (List Char × List Char) :=
      fun (intChars, s2) =>
        match pFrac s2 with
        | none => none
        | some (fracChars, s3) =>
          match pExp s3 with
          | none => none
          | some (expChars, s4) =>
            some (negPart ++ intChars ++ fracChars ++ expChars, s4)
    if c = '0' then cont ([c], r)
    else if isDigit c then cont (c :: r.takeWhile isDigit, r.dropWhile isDigit)
    else none

mutual

/-- A JSON value inside a flat object span. `'\x7b'` cannot occur inside
the extracted span, so nested objects never appear in any input this is
run on; values are strings, numbers, literals and arrays. -/
def pValue : Nat → List Char → Option (JsonVal × List Char)
  | 0, _ => none
  | fuel + 1, s =>
    match s with
    | [] => none
    | c :: rest =>
      if c = '"' then
        match pString rest with
        | some (cs, r) => some (.str (String.mk cs), r)
        | none => none
      else if c = 't' then
        match rest with
        | 'r' :: 'u' :: 'e' :: r => some (.bool true, r)
        | _ => none
      else if c = 'f' then
        match rest with
        | 'a' :: 'l' :: 's' :: 'e' :: r => some (.bool false, r)
        | _ => none
      else if c = 'n' then
        match rest with
        | 'u' :: 'l' :: 'l' :: r => some (.null, r)
        | _ => none
      else if c = '[' then
        match skipWs rest with
        | ']' :: r2 => some (.arr [], r2)
        | r1 =>
          match pElems fuel r1 with
          | some (vs, r2) => some (.arr vs, r2)
          | none => none
      else if c = '-' ∨ isDigit c then
        match pNum (c :: rest) with
        | some (tok, r) => some (.num tok, r)
        | none => none
      else none

/-- Comma separated array elements, up to and including the closing
bracket. -/
def pElems : Nat → List Char → Option (List JsonVal × List Char)
  | 0, _ => none
  | fuel + 1, s =>
    match pValue fuel s with
    | none => none
    | some (v, r) =>
      match skipWs r with
      | ',' :: r2 =>
        match pElems fuel (skipWs r2) with
        | some (vs, r3) => some (v :: vs, r3)
        | none => none
      | ']' :: r2 => some ([v], r2)
      | _ => none

end

/-- Members of the object, given the text after the opening brace with
leading whitespace already skipped, starting at the first key. -/
def pMembers : Nat → List Char → Option (List (String × JsonVal) × List Char)
  | 0, _ => none
  | fuel + 1, s =>
    match s with
    | '"' :: rest =>
      match pString rest with
      | none => none
      | some (kcs, r1) =>
        match skipWs r1 with
        | ':' :: r2 =>
          let r2w := skipWs r2
          match pValue (r2w.length + 1) r2w with
          | none => none
          | some (v, r3) =>
            match skipWs r3 with
            | ',' :: r4 =>
              match pMembers fuel (skipWs r4) with
              | some (ms, r5) => some ((String.mk kcs, v) :: ms, r5)
              | none => none
            | '\x7d' :: r4 => some ([(String.mk kcs, v)], r4)
            | _ => none
        | _ => none
    | _ => none

/-- Parse a whole string as a single JSON object, in the the way
`serde_json::from_str` reads one: the object, then nothing but trailing
whitespace. Returns the member list in textual order. -/
def parseObjectTop (s : List Char) : Option (List (String × JsonVal)) :=
  match s with
  | '\x7b' :: rest =>
    match skipWs rest with
    | '\x7d' :: r2 => if (skipWs r2).isEmpty then some [] else none
    | r1 =>
      match pMembers (r1.length + 1) r1 with
      | some (ms, r2) => if (skipWs r2).isEmpty then some ms else none
      | none => none
  | _ => none

/-- The string content of a JSON value, for deserialising a `String`
struct field: any other value shape is a type error. -/
def strVal : JsonVal → Option String
  | .str s => some s
  | .num _ => none
  | .bool _ => none
  | .null => none
  | .arr _ => none

/-- Store a just-read string field into its accumulator slot: a second
occurrence of the field (slot already filled) is a duplicate-field
error, a non-string value is a type error. -/
def setOnce : Option String → Option String → Option (Option String)
  | some _, _ => none
  | none, some s => some (some s)
  | none, none => none

/-- Derive semantics of `Deserialize` for `LlmDecision`: walk the members
in order; a `decision` or `reason` member must be a string and must not
repeat; other members are ignored (no deny_unknown_fields); both fields
must be present at the end. -/
def readDecisionFields : List (String × JsonVal) → Option String → Option String → Option LlmDecision
  | [], accD, accR => accD.bind fun d => accR.map fun r => ⟨d, r⟩
  | (k, v) :: rest, accD, accR =>
    if k = "decision" then
      (setOnce accD (strVal v)).bind fun accD2 => readDecisionFields rest accD2 accR
    else if k = "reason" then
      (setOnce accR (strVal v)).bind fun accR2 => readDecisionFields rest accD accR2
    else readDecisionFields rest accD accR

def toDecision (fields : List (String × JsonVal)) : Option LlmDecision :=
  readDecisionFields fields none none

/-- `serde_json::from_str::<LlmDecision>` on the extracted span. -/
def parseLlmDecision (s : List Char) : Option LlmDecision :=
  match parseObjectTop s with
  | some fields => toDecision fields
  | none => none

-- ===========================================================================
-- parse_decision (src/llm.rs, fn parse_decision)
-- ===========================================================================

inductive ParseError where
  | NoJsonFound
  | MalformedJson
deriving DecidableEq, Repr

def parse_decision (raw : String) : Except ParseError LlmDecision :=
  let cleaned := stripThink raw.data
  match findFlat cleaned with
  | none => .error .NoJsonFound
  | some jsonStr =>
    match parseLlmDecision jsonStr with
    | some d => .ok d
    | none => .error .MalformedJson

-- ===========================================================================
-- Scenario graph (src/game_tree.rs, GameNode / GameTree)
-- ===========================================================================

structure GameNode where
  id : String
  transcript : String
  terminal : Bool
  is_success : Bool
  next_node_ids : List String
  system_context : Option String
deriving DecidableEq, Repr

structure GameTree where
  nodes : List (String × GameNode)
  start_node_id : String
deriving DecidableEq, Repr

def GameTree.get (t : GameTree) (id : String) : Option GameNode :=
  t.nodes.lookup id

/-- The iterator chain `map(longest_path) / max() / unwrap_or(0)` of
src/game_tree.rs over the next ids, as a fold; `none` propagates a
recursive call that ran out of fuel. -/
def maxChildAux (f : String → Option Nat) (l : List String) : Option Nat :=
  l.foldr
    (fun c acc =>
      match f c, acc with
      | some v, some m => some (max v m)
      | _, _ => none)
    (some 0)

/-- `longest_path` (src/game_tree.rs): the maximum over the next ids of
the recursive value. `none` means the recursion did not finish within
the given fuel (the Rust original recurses without bound and diverges on
a cycle). A missing node contributes 0. -/
def longest_path (t : GameTree) : Nat → String → Option Nat
  | 0, _ => none
  | fuel + 1, id =>
    match t.get id with
    | none => some 0
    | some node =>
      if node.terminal then some 0
      else
        match maxChildAux (longest_path t fuel) node.next_node_ids with
        | some m => some (1 + m)
        | none => none

/-- `total_steps` (src/game_tree.rs), with explicit fuel. -/
def total_steps (t : GameTree) (fuel : Nat) : Option Nat :=
  longest_path t fuel t.start_node_id

/-- `PathTo t id k`: starting at node `id` there is a path through the
graph that reaches a terminal node after passing through `k` decision
(non-terminal) nodes, each step following a registered next id. -/
inductive PathTo (t : GameTree) : String → Nat → Prop where
  | term (id : String) (n : GameNode) :
      t.get id = some n → n.terminal = true → PathTo t id 0
  | step (id : String) (n : GameNode) (c : String) (k : Nat) :
      t.get id = some n → n.terminal = false → c ∈ n.next_node_ids →
      PathTo t c k → PathTo t id (k + 1)

-- ===========================================================================
-- Judge Protocol (src/llm.rs, LLM::judge)
-- ===========================================================================

inductive JudgeError where
  | generationFailed
  | parseFailed (e : ParseError)
  | invalidChoice (d : LlmDecision)
deriving DecidableEq, Repr

/-- `GenOracle` abstracts `LLM::generate`: the (stateful, model-driven)
generation step is a function from the message list to either raw output
text or a generation failure. -/
def GenOracle : Type := List ChatMessage → Option String

/-- `LLM::judge` (src/llm.rs): generate, parse, then bail out with an
error if the parsed decision is not among the valid choices. -/
def judge (gen : GenOracle) (messages : List ChatMessage)
    (valid_choices : List String) : Except JudgeError LlmDecision :=
  match gen messages with
  | none => .error .generationFailed
  | some raw =>
    match parse_decision raw with
    | .error e => .error (.parseFailed e)
    | .ok d =>
      if valid_choices.contains d.decision then .ok d
      else .error (.invalidChoice d)

-- ===========================================================================
-- Scenario Graph Walker (src/game.rs)
-- ===========================================================================

structure GameState where
  tree : GameTree
  current_node_id : String
  conversation : List ChatMessage
  steps_completed : Nat
deriving DecidableEq, Repr

/-- `GameState::new` (src/game.rs). -/
def GameState.new (tree : GameTree) : GameState :=
  ⟨tree, tree.start_node_id, [], 0⟩

def SYSTEM_PROMPT : String :=
  "You are a border security guard at an airport. You are having a conversation with a traveller. Your job is to categorize the Traveller\x27s last response based on the following rules:"

/-- `build_judge_instruction` (src/game.rs): optional node criteria,
then the option listing in order, then the JSON format instruction. -/
def build_judge_instruction (node : GameNode) : String :=
  (match node.system_context with
   | some ctx => ctx ++ "\n\n"
   | none => "") ++
  "Pick one: " ++ String.intercalate ", " node.next_node_ids ++
  "\nReply with JSON only: \x7b\"decision\": \"<PICK>\", \"reason\": \"<why>\"\x7d. JSON must be valid."

/-- `build_judge_messages` (src/game.rs): one system message holding the
role prompt and the judge instruction, followed by the conversation so
far. -/
def build_judge_messages (state : GameState) (node : GameNode) : List ChatMessage :=
  [ChatMessage.system (SYSTEM_PROMPT ++ " \n " ++ build_judge_instruction node)] ++
    state.conversation

/-- Rust `str::trim` on the line read from stdin. -/
def rustTrim (s : String) : String :=
  String.mk (((s.data.dropWhile Char.isWhitespace).reverse.dropWhile Char.isWhitespace).reverse)

def asciiLower (c : Char) : Char :=
  if 'A' ≤ c ∧ c ≤ 'Z' then Char.ofNat (c.toNat + 32) else c

/-- Rust `str::eq_ignore_ascii_case`. -/
def eqIgnoreAsciiCase (a b : String) : Bool :=
  a.data.map asciiLower == b.data.map asciiLower

/-- How one pass of the `play_round` loop body (src/game.rs) ends. -/
inductive RoundEnd where
  | finished (success : Bool) (steps_completed : Nat) (total_steps : Nat)
      (terminal_node_id : String)
  | quit
  | next
  | fatal (e : JudgeError)
  | panicked
deriving DecidableEq, Repr

/-- Result of one pass of the loop body: how it ended, the session state
at that point, and the message lists passed to `LLM::judge` during the
pass (observable record of generation calls). -/
structure StepOut where
  res : RoundEnd
  state : GameState
  calls : List (List ChatMessage)
deriving DecidableEq, Repr

/-- One pass of the `play_round` loop body (src/game.rs), for current
state `s` and the line `input` read from the player. `total` is the
`total_steps` value `play_round` computed before the loop. `.next` means
the loop runs another pass on the returned state; `.fatal` is an error
propagated out of `play_round` by the `?` on `model.judge`; `.panicked`
marks the `unwrap` on a missing node or on `first()` of an empty option
list. -/
def roundStep (gen : GenOracle) (total : Nat) (s : GameState) (input : String) : StepOut :=
  match s.tree.get s.current_node_id with
  | none => ⟨.panicked, s, []⟩
  | some node =>
    let s1 : GameState :=
      { s with conversation := s.conversation ++ [ChatMessage.assistant node.transcript] }
    if node.terminal then
      ⟨.finished node.is_success s1.steps_completed total node.id, s1, []⟩
    else
      let inp := rustTrim input
      if inp.data.isEmpty then
        ⟨.next, { s1 with conversation := s1.conversation.dropLast }, []⟩
      else if eqIgnoreAsciiCase inp "quit" || eqIgnoreAsciiCase inp "exit" then
        ⟨.quit, s1, []⟩
      else
        let s2 : GameState :=
          { s1 with conversation := s1.conversation ++ [ChatMessage.user inp] }
        let messages := build_judge_messages s2 node
        match judge gen messages node.next_node_ids with
        | .error e => ⟨.fatal e, s2, [messages]⟩
        | .ok decision =>
          if !(node.next_node_ids.contains decision.decision) then
            match node.next_node_ids.head? with
            | none => ⟨.panicked, s2, [messages]⟩
            | some fallback =>
              ⟨.next,
               { s2 with current_node_id := fallback,
                         steps_completed := s2.steps_completed + 1 },
               [messages]⟩
          else
            ⟨.next,
             { s2 with current_node_id := decision.decision,
                       steps_completed := s2.steps_completed + 1 },
             [messages]⟩

/-- States the walker loop can be in at the top of a pass, for a round
started on `tree`: the freshly initialised state, and every state a
continuing pass hands to the next one (for any oracle, denominator and
player line). -/
inductive Reachable (tree : GameTree) : GameState → Prop where
  | init : Reachable tree (GameState.new tree)
  | step (s : GameState) (gen : GenOracle) (total : Nat) (input : String) :
      Reachable tree s →
      (roundStep gen total s input).res = RoundEnd.next →
      Reachable tree (roundStep gen total s input).state

/-- Structural invariants of the graph, quantified over the entries of
the node list: the start node exists, and every next id of every node
exists. -/
def TreeWF (t : GameTree) : Prop :=
  (t.get t.start_node_id).isSome = true ∧
    ∀ p ∈ t.nodes, ∀ c ∈ p.2.next_node_ids, (t.get c).isSome = true

instance (t : GameTree) : Decidable (TreeWF t) := by
  unfold TreeWF; infer_instance

/-- A list of characters free of both braces. -/
def braceFree (l : List Char) : Prop := ∀ c ∈ l, notBrace c = true

instance (l : List Char) : Decidable (braceFree l) := by
  unfold braceFree; infer_instance

-- ===========================================================================
-- A small concrete scenario used to instantiate the theorems: one
-- decision node with the favorable option first, two terminal nodes.
-- ===========================================================================

def demoPass : GameNode := ⟨"A", "you pass", true, true, [], none⟩

def demoFail : GameNode := ⟨"B", "you fail", true, false, [], none⟩

def demoStart : GameNode :=
  ⟨"START", "Passport please.", false, false, ["A", "B"], some "criteria text"⟩

def demoTree : GameTree :=
  ⟨[("START", demoStart), ("A", demoPass), ("B", demoFail)], "START"⟩

def demoRank (id : String) : Nat := if id = "START" then 1 else 0

/-- Oracle whose raw completion decodes to a choice outside the valid
set of the demo decision node. -/
def genInvalid : GenOracle :=
  fun _ => some "\x7b\"decision\": \"C\", \"reason\": \"x\"\x7d"

/-- Oracle whose raw completion decodes to the favorable option of the
demo decision node. -/
def genPass : GenOracle :=
  fun _ => some "\x7b\"decision\": \"A\", \"reason\": \"ok\"\x7d"

/-- Oracle modelling a failed generation call. -/
def genFail : GenOracle := fun _ => none

-- ===========================================================================
-- Helper lemmas
-- ===========================================================================

theorem lookup_mem {α β : Type} [BEq α] [LawfulBEq α] {l : List (α × β)} {a : α} {b : β}
    (h : l.lookup a = some b) : (a, b) ∈ l := by
  induction l with
  | nil => simp [List.lookup] at h
  | cons p rest ih =>
    obtain ⟨k, v⟩ := p
    cases hak : a == k with
    | true =>
      have hk : a = k := eq_of_beq hak
      rw [List.lookup, hak] at h
      simp at h
      subst hk
      subst h
      exact List.mem_cons_self _ _
    | false =>
      rw [List.lookup, hak] at h
      exact List.mem_cons_of_mem _ (ih h)

theorem roundStep_tree_eq (gen : GenOracle) (total : Nat) (s : GameState) (input : String) :
    (roundStep gen total s input).state.tree = s.tree := by
  unfold roundStep
  dsimp only
  repeat' split <;> try rfl

theorem roundStep_next_id (gen : GenOracle) (total : Nat) (s : GameState) (input : String)
    (h : (roundStep gen total s input).res = RoundEnd.next) :
    (roundStep gen total s input).state.current_node_id = s.current_node_id ∨
      ∃ node, s.tree.get s.current_node_id = some node ∧
        (roundStep gen total s input).state.current_node_id ∈ node.next_node_ids := by
  rcases hout : roundStep gen total s input with ⟨res, st, calls⟩
  rw [hout] at h
  dsimp only at h ⊢
  unfold roundStep at hout
  dsimp only at hout
  split at hout
  · cases hout; simp at h
  · rename_i node hnode
    split at hout
    · cases hout; simp at h
    · rename_i hterm
      split at hout
      · cases hout; exact Or.inl rfl
      · split at hout
        · cases hout; simp at h
        · split at hout
          · cases hout; simp at h
          · rename_i d hjudge
            split at hout
            · split at hout
              · cases hout; simp at h
              · rename_i fb hfb
                cases hout
                refine Or.inr ⟨node, hnode, ?_⟩
                cases hl : node.next_node_ids with
                | nil => rw [hl] at hfb; simp at hfb
                | cons a tl =>
                  rw [hl] at hfb
                  simp at hfb
                  subst hfb
                  exact List.mem_cons_self _ _
            · rename_i hcontains
              cases hout
              refine Or.inr ⟨node, hnode, ?_⟩
              simp at hcontains
              exact hcontains

theorem roundStep_conv (gen : GenOracle) (total : Nat) (s : GameState) (input : String) :
    ∀ m ∈ (roundStep gen total s input).state.conversation,
      m ∈ s.conversation ∨ m.role = "assistant" ∨ m.role = "user" := by
  have key : ∀ (conv extra : List ChatMessage),
      (∀ x ∈ extra, x.role = "assistant" ∨ x.role = "user") →
      ∀ m ∈ conv ++ extra, m ∈ conv ∨ m.role = "assistant" ∨ m.role = "user" := by
    intro conv extra hx m hm
    rcases List.mem_append.mp hm with hmc | hmc
    · exact Or.inl hmc
    · exact Or.inr (hx m hmc)
  unfold roundStep
  dsimp only
  repeat' split
  all_goals simp only [List.dropLast_concat, List.append_assoc]
  all_goals first
    | exact fun m hm => Or.inl hm
    | exact key _ _ (by
        intro x hx
        simp only [List.mem_append, List.mem_singleton, List.mem_cons,
          List.not_mem_nil, or_false] at hx
        first
          | (rcases hx with hh | hh <;> subst hh <;>
              simp [ChatMessage.assistant, ChatMessage.user])
          | (subst hx; simp [ChatMessage.assistant, ChatMessage.user]))

theorem reachable_tree_eq {t : GameTree} {s : GameState} (h : Reachable t s) : s.tree = t := by
  induction h with
  | init => rfl
  | step s gen total input hr hres ih => rw [roundStep_tree_eq]; exact ih

theorem reachable_conv_roles {t : GameTree} {s : GameState} (h : Reachable t s) :
    ∀ m ∈ s.conversation, m.role = "assistant" ∨ m.role = "user" := by
  induction h with
  | init => intro m hm; simp [GameState.new] at hm
  | step s gen total input hr hres ih =>
    intro m hm
    rcases roundStep_conv gen total s input m hm with hmem | hrole
    · exact ih m hmem
    · exact hrole

theorem eqIgnoreAsciiCase_ne_empty {x w : String} (h : eqIgnoreAsciiCase x w = true)
    (hw : w.data ≠ []) : x.data.isEmpty = false := by
  unfold eqIgnoreAsciiCase at h
  have hdata := eq_of_beq h
  cases hx : x.data with
  | nil =>
    rw [hx] at hdata
    simp at hdata
    exact absurd hdata hw
  | cons a l => simp

theorem takeWhile_append_all {α : Type} {p : α → Bool} {l1 l2 : List α}
    (h : ∀ x ∈ l1, p x = true) : (l1 ++ l2).takeWhile p = l1 ++ l2.takeWhile p := by
  induction l1 with
  | nil => simp
  | cons c cs ih =>
    have hc := h c (List.mem_cons_self _ _)
    simp [List.takeWhile_cons, hc, ih (fun x hx => h x (List.mem_cons_of_mem _ hx))]

theorem dropWhile_append_all {α : Type} {p : α → Bool} {l1 l2 : List α}
    (h : ∀ x ∈ l1, p x = true) : (l1 ++ l2).dropWhile p = l2.dropWhile p := by
  induction l1 with
  | nil => simp
  | cons c cs ih =>
    have hc := h c (List.mem_cons_self _ _)
    simp [List.dropWhile_cons, hc, ih (fun x hx => h x (List.mem_cons_of_mem _ hx))]

/-- The leftmost flat-brace match in `pre ++ span ++ post` is the span
itself whenever the text before it is brace-free, whatever follows. -/
theorem findFlat_first {a mid b : List Char} (ha : braceFree a) (hmid : braceFree mid) :
    findFlat (a ++ openBrace :: (mid ++ closeBrace :: b))
      = some (openBrace :: (mid ++ [closeBrace])) := by
  induction a with
  | nil =>
    rw [List.nil_append]
    rw [findFlat]
    rw [if_pos rfl]
    have hdrop : (mid ++ closeBrace :: b).dropWhile notBrace = closeBrace :: b := by
      rw [dropWhile_append_all hmid, List.dropWhile_cons]
      simp [notBrace]
    have htake : (mid ++ closeBrace :: b).takeWhile notBrace = mid := by
      rw [takeWhile_append_all hmid, List.takeWhile_cons]
      simp [notBrace]
    rw [hdrop, htake]
    simp
  | cons c cs ih =>
    have hc := ha c (List.mem_cons_self _ _)
    have hne : ¬(c = openBrace) := by
      intro hcc
      subst hcc
      simp [notBrace] at hc
    rw [List.cons_append, findFlat, if_neg hne]
    exact ih (fun x hx => ha x (List.mem_cons_of_mem _ hx))

theorem nodup_keys_val_eq {l : List (String × JsonVal)} (hnodup : (l.map Prod.fst).Nodup)
    {k : String} {v w : JsonVal} (hv : (k, v) ∈ l) (hw : (k, w) ∈ l) : v = w := by
  induction l with
  | nil => simp at hv
  | cons p rest ih =>
    obtain ⟨pk, pv⟩ := p
    rcases List.mem_cons.mp hv with hv1 | hv1 <;> rcases List.mem_cons.mp hw with hw1 | hw1
    · cases hv1
      injection hw1 with h1 h2
      exact h2.symm
    · exfalso
      injection hv1 with hk hv2
      subst hk
      rw [List.map_cons, List.nodup_cons] at hnodup
      exact hnodup.1 (List.mem_map.mpr ⟨(k, w), hw1, rfl⟩)
    · exfalso
      injection hw1 with hk hv2
      subst hk
      rw [List.map_cons, List.nodup_cons] at hnodup
      exact hnodup.1 (List.mem_map.mpr ⟨(k, v), hv1, rfl⟩)
    · rw [List.map_cons, List.nodup_cons] at hnodup
      exact ih hnodup.2 hv1 hw1

theorem readFields_done {l : List (String × JsonVal)} {d r : String}
    (hd : "decision" ∉ l.map Prod.fst) (hr : "reason" ∉ l.map Prod.fst) :
    readDecisionFields l (some d) (some r) = some ⟨d, r⟩ := by
  induction l with
  | nil => rfl
  | cons p rest ih =>
    obtain ⟨k, v⟩ := p
    rw [List.map_cons, List.mem_cons] at hd hr
    push_neg at hd hr
    have hk1 : ¬(k = "decision") := fun h => hd.1 h.symm
    have hk2 : ¬(k = "reason") := fun h => hr.1 h.symm
    rw [readDecisionFields, if_neg hk1, if_neg hk2]
    exact ih hd.2 hr.2

theorem readFields_reason {l : List (String × JsonVal)} {d r : String}
    (hnodup : (l.map Prod.fst).Nodup)
    (hd : "decision" ∉ l.map Prod.fst)
    (hr : ("reason", JsonVal.str r) ∈ l) :
    readDecisionFields l (some d) none = some ⟨d, r⟩ := by
  induction l with
  | nil => simp at hr
  | cons p rest ih =>
    obtain ⟨k, v⟩ := p
    by_cases hk2 : k = "reason"
    · subst hk2
      have hv : v = JsonVal.str r :=
        nodup_keys_val_eq hnodup (List.mem_cons_self _ _) hr
      subst hv
      rw [List.map_cons, List.nodup_cons] at hnodup
      rw [List.map_cons, List.mem_cons] at hd
      push_neg at hd
      have hk1 : ¬(("reason" : String) = "decision") := by decide
      rw [readDecisionFields, if_neg hk1, if_pos rfl]
      simp only [strVal, setOnce, Option.some_bind]
      exact readFields_done hd.2 hnodup.1
    · rw [List.map_cons, List.nodup_cons] at hnodup
      rw [List.map_cons, List.mem_cons] at hd
      push_neg at hd
      have hk1 : ¬(k = "decision") := fun h => hd.1 h.symm
      have hrt : ("reason", JsonVal.str r) ∈ rest := by
        rcases List.mem_cons.mp hr with hh | hh
        · injection hh with h1 h2; exact absurd h1.symm hk2
        · exact hh
      rw [readDecisionFields, if_neg hk1, if_neg hk2]
      exact ih hnodup.2 hd.2 hrt

theorem readFields_decision {l : List (String × JsonVal)} {d r : String}
    (hnodup : (l.map Prod.fst).Nodup)
    (hr : "reason" ∉ l.map Prod.fst)
    (hd : ("decision", JsonVal.str d) ∈ l) :
    readDecisionFields l none (some r) = some ⟨d, r⟩ := by
  induction l with
  | nil => simp at hd
  | cons p rest ih =>
    obtain ⟨k, v⟩ := p
    by_cases hk1 : k = "decision"
    · subst hk1
      have hv : v = JsonVal.str d :=
        nodup_keys_val_eq hnodup (List.mem_cons_self _ _) hd
      subst hv
      rw [List.map_cons, List.nodup_cons] at hnodup
      rw [List.map_cons, List.mem_cons] at hr
      push_neg at hr
      rw [readDecisionFields, if_pos rfl]
      simp only [strVal, setOnce, Option.some_bind]
      exact readFields_done hnodup.1 hr.2
    · rw [List.map_cons, List.nodup_cons] at hnodup
      rw [List.map_cons, List.mem_cons] at hr
      push_neg at hr
      have hk2 : ¬(k = "reason") := fun h => hr.1 h.symm
      have hdt : ("decision", JsonVal.str d) ∈ rest := by
        rcases List.mem_cons.mp hd with hh | hh
        · injection hh with h1 h2; exact absurd h1.symm hk1
        · exact hh
      rw [readDecisionFields, if_neg hk1, if_neg hk2]
      exact ih hnodup.2 hr.2 hdt

theorem toDecision_of_mem {fields : List (String × JsonVal)} {d r : String}
    (hnodup : (fields.map Prod.fst).Nodup)
    (hdec : ("decision", JsonVal.str d) ∈ fields)
    (hreas : ("reason", JsonVal.str r) ∈ fields) :
    toDecision fields = some ⟨d, r⟩ := by
  unfold toDecision
  induction fields with
  | nil => simp at hdec
  | cons p rest ih =>
    obtain ⟨k, v⟩ := p
    by_cases hk1 : k = "decision"
    · subst hk1
      have hv : v = JsonVal.str d :=
        nodup_keys_val_eq hnodup (List.mem_cons_self _ _) hdec
      subst hv
      have hrt : ("reason", JsonVal.str r) ∈ rest := by
        rcases List.mem_cons.mp hreas with hh | hh
        · injection hh with h1 h2; exact absurd h1 (by decide)
        · exact hh
      rw [List.map_cons, List.nodup_cons] at hnodup
      rw [readDecisionFields, if_pos rfl]
      simp only [strVal, setOnce, Option.some_bind]
      exact readFields_reason hnodup.2 hnodup.1 hrt
    · by_cases hk2 : k = "reason"
      · subst hk2
        have hv : v = JsonVal.str r :=
          nodup_keys_val_eq hnodup (List.mem_cons_self _ _) hreas
        subst hv
        have hdt : ("decision", JsonVal.str d) ∈ rest := by
          rcases List.mem_cons.mp hdec with hh | hh
          · injection hh with h1 h2; exact absurd h1 (by decide)
          · exact hh
        rw [List.map_cons, List.nodup_cons] at hnodup
        rw [readDecisionFields, if_neg hk1, if_pos rfl]
        simp only [strVal, setOnce, Option.some_bind]
        exact readFields_decision hnodup.2 hnodup.1 hdt
      · have hdt : ("decision", JsonVal.str d) ∈ rest := by
          rcases List.mem_cons.mp hdec with hh | hh
          · injection hh with h1 h2; exact absurd h1.symm hk1
          · exact hh
        have hrt : ("reason", JsonVal.str r) ∈ rest := by
          rcases List.mem_cons.mp hreas with hh | hh
          · injection hh with h1 h2; exact absurd h1.symm hk2
          · exact hh
        rw [List.map_cons, List.nodup_cons] at hnodup
        rw [readDecisionFields, if_neg hk1, if_neg hk2]
        exact ih hnodup.2 hdt hrt

theorem readFields_none_noDecision {l : List (String × JsonVal)}
    (hd : "decision" ∉ l.map Prod.fst) :
    ∀ accR, readDecisionFields l none accR = none := by
  induction l with
  | nil => intro accR; rfl
  | cons p rest ih =>
    obtain ⟨k, v⟩ := p
    rw [List.map_cons, List.mem_cons] at hd
    push_neg at hd
    have hk1 : ¬(k = "decision") := fun h => hd.1 h.symm
    intro accR
    rw [readDecisionFields, if_neg hk1]
    by_cases hk2 : k = "reason"
    · rw [if_pos hk2]
      cases hso : setOnce accR (strVal v) with
      | none => rfl
      | some accR2 => simp only [Option.some_bind]; exact ih hd.2 accR2
    · rw [if_neg hk2]
      exact ih hd.2 accR

theorem readFields_none_noReason {l : List (String × JsonVal)}
    (hr : "reason" ∉ l.map Prod.fst) :
    ∀ accD, readDecisionFields l accD none = none := by
  induction l with
  | nil =>
    intro accD
    cases accD <;> rfl
  | cons p rest ih =>
    obtain ⟨k, v⟩ := p
    rw [List.map_cons, List.mem_cons] at hr
    push_neg at hr
    have hk2 : ¬(k = "reason") := fun h => hr.1 h.symm
    intro accD
    rw [readDecisionFields]
    by_cases hk1 : k = "decision"
    · rw [if_pos hk1]
      cases hso : setOnce accD (strVal v) with
      | none => rfl
      | some accD2 => simp only [Option.some_bind]; exact ih hr.2 accD2
    · rw [if_neg hk1, if_neg hk2]
      exact ih hr.2 accD

theorem readFields_none_badval {l : List (String × JsonVal)} {k0 : String} {v0 : JsonVal}
    (hk0 : k0 = "decision" ∨ k0 = "reason")
    (hmem : (k0, v0) ∈ l) (hbad : strVal v0 = none) :
    ∀ accD accR, readDecisionFields l accD accR = none := by
  induction l with
  | nil => simp at hmem
  | cons p rest ih =>
    obtain ⟨k, v⟩ := p
    intro accD accR
    rcases List.mem_cons.mp hmem with heq | htail
    · injection heq with hkk hvv
      subst hkk
      subst hvv
      rcases hk0 with rfl | rfl
      · rw [readDecisionFields, if_pos rfl, hbad]
        cases accD <;> rfl
      · rw [readDecisionFields, if_neg (by decide : ¬(("reason" : String) = "decision")),
          if_pos rfl, hbad]
        cases accR <;> rfl
    · rw [readDecisionFields]
      by_cases hk1 : k = "decision"
      · rw [if_pos hk1]
        cases hso : setOnce accD (strVal v) with
        | none => rfl
        | some accD2 => simp only [Option.some_bind]; exact ih htail accD2 accR
      · rw [if_neg hk1]
        by_cases hk2 : k = "reason"
        · rw [if_pos hk2]
          cases hso : setOnce accR (strVal v) with
          | none => rfl
          | some accR2 => simp only [Option.some_bind]; exact ih htail accD accR2
        · rw [if_neg hk2]
          exact ih htail accD accR

theorem toDecision_none {fields : List (String × JsonVal)}
    (h : "decision" ∉ fields.map Prod.fst ∨ "reason" ∉ fields.map Prod.fst ∨
         ∃ k v, (k = "decision" ∨ k = "reason") ∧ (k, v) ∈ fields ∧ strVal v = none) :
    toDecision fields = none := by
  unfold toDecision
  rcases h with h | h | ⟨k, v, hk, hmem, hbad⟩
  · exact readFields_none_noDecision h none
  · exact readFields_none_noReason h none
  · exact readFields_none_badval hk hmem hbad none none


theorem maxChildAux_collect (t : GameTree) (rank : String → Nat) (B : Nat) :
    ∀ l : List String,
      (∀ c ∈ l, rank c < B) →
      (∀ c ∈ l, ∃ v, (∀ fuel, rank c < fuel → longest_path t fuel c = some v) ∧
          PathTo t c v ∧ ∀ k, PathTo t c k → k ≤ v) →
      ∃ m, (∀ fuel, B ≤ fuel → maxChildAux (longest_path t fuel) l = some m) ∧
        (∀ c ∈ l, ∀ k, PathTo t c k → k ≤ m) ∧
        (l ≠ [] → ∃ c ∈ l, PathTo t c m) := by
  intro l
  induction l with
  | nil =>
    intro hB hall
    exact ⟨0, fun fuel hf => rfl, by simp, fun h => absurd rfl h⟩
  | cons c cs ih =>
    intro hB hall
    obtain ⟨vc, hvc_fuel, hvc_path, hvc_ub⟩ := hall c (List.mem_cons_self _ _)
    obtain ⟨m, hm_fuel, hm_ub, hm_att⟩ :=
      ih (fun x hx => hB x (List.mem_cons_of_mem _ hx))
         (fun x hx => hall x (List.mem_cons_of_mem _ hx))
    refine ⟨max vc m, ?_, ?_, ?_⟩
    · intro fuel hf
      have h1 : longest_path t fuel c = some vc :=
        hvc_fuel fuel (Nat.lt_of_lt_of_le (hB c (List.mem_cons_self _ _)) hf)
      have h2 : maxChildAux (longest_path t fuel) cs = some m := hm_fuel fuel hf
      show (List.foldr _ (some 0) (c :: cs) : Option Nat) = _
      rw [List.foldr_cons]
      have h2f : List.foldr _ (some 0) cs = some m := h2
      rw [h2f, h1]
    · intro x hx k hk
      rcases List.mem_cons.mp hx with hh | hh
      · subst hh
        exact Nat.le_trans (hvc_ub k hk) (Nat.le_max_left _ _)
      · exact Nat.le_trans (hm_ub x hh k hk) (Nat.le_max_right _ _)
    · intro _
      by_cases hcs : cs = []
      · subst hcs
        have hm0 : m = 0 := by
          have := hm_fuel B (Nat.le_refl _)
          simpa [maxChildAux] using this.symm
        refine ⟨c, List.mem_cons_self _ _, ?_⟩
        rw [hm0, Nat.max_zero]
        exact hvc_path
      · rcases Nat.le_total m vc with hle | hle
        · refine ⟨c, List.mem_cons_self _ _, ?_⟩
          rw [Nat.max_eq_left hle]
          exact hvc_path
        · obtain ⟨x, hxmem, hxpath⟩ := hm_att hcs
          refine ⟨x, List.mem_cons_of_mem _ hxmem, ?_⟩
          rw [Nat.max_eq_right hle]
          exact hxpath

theorem longest_path_spec (t : GameTree) (rank : String → Nat)
    (hrank : ∀ p ∈ t.nodes, p.2.terminal = false → ∀ c ∈ p.2.next_node_ids, rank c < rank p.1)
    (hclosed : ∀ p ∈ t.nodes, p.2.terminal = false →
        p.2.next_node_ids ≠ [] ∧ ∀ c ∈ p.2.next_node_ids, (t.get c).isSome = true) :
    ∀ R id node, rank id < R → t.get id = some node →
      ∃ v, (∀ fuel, rank id < fuel → longest_path t fuel id = some v) ∧
        PathTo t id v ∧ ∀ k, PathTo t id k → k ≤ v := by
  intro R
  induction R with
  | zero => intro id node h _; omega
  | succ R ih =>
    intro id node hR hnode
    by_cases hterm : node.terminal = true
    · refine ⟨0, ?_, PathTo.term id node hnode hterm, ?_⟩
      · intro fuel hfuel
        cases fuel with
        | zero => omega
        | succ f =>
          rw [longest_path, hnode]
          dsimp only
          rw [if_pos hterm]
      · intro k hk
        cases hk with
        | term id2 n2 hnode2 hterm3 => exact Nat.le_refl 0
        | step id2 n2 c k2 hnode2 hterm3 hcmem hpath2 =>
          rw [hnode] at hnode2
          injection hnode2 with he
          subst he
          rw [hterm] at hterm3
          cases hterm3
    · have hterm2 : node.terminal = false := by
        cases hb : node.terminal
        · rfl
        · exact absurd hb hterm
      have hmem := lookup_mem hnode
      obtain ⟨hne, hex⟩ := hclosed (id, node) hmem hterm2
      have hranks : ∀ c ∈ node.next_node_ids, rank c < rank id :=
        fun c hc => hrank (id, node) hmem hterm2 c hc
      have hchild : ∀ c ∈ node.next_node_ids,
          ∃ v, (∀ fuel, rank c < fuel → longest_path t fuel c = some v) ∧
            PathTo t c v ∧ ∀ k, PathTo t c k → k ≤ v := by
        intro c hc
        obtain ⟨nc, hnc⟩ := Option.isSome_iff_exists.mp (hex c hc)
        have hrc := hranks c hc
        exact ih c nc (by omega) hnc
      obtain ⟨m, hm_fuel, hm_ub, hm_att⟩ :=
        maxChildAux_collect t rank (rank id) node.next_node_ids hranks hchild
      refine ⟨1 + m, ?_, ?_, ?_⟩
      · intro fuel hfuel
        cases fuel with
        | zero => omega
        | succ f =>
          rw [longest_path, hnode]
          dsimp only
          rw [if_neg hterm]
          rw [hm_fuel f (by omega)]
      · obtain ⟨c, hcmem, hcpath⟩ := hm_att hne
        have hp := PathTo.step id node c m hnode hterm2 hcmem hcpath
        rwa [Nat.add_comm] at hp
      · intro k hk
        cases hk with
        | term id2 n2 hnode2 hterm3 => exact Nat.zero_le _
        | step id2 n2 c k2 hnode2 hterm3 hcmem hpath2 =>
          rw [hnode] at hnode2
          injection hnode2 with he
          subst he
          have := hm_ub c hcmem k2 hpath2
          omega

-- ===========================================================================
-- Claim theorems
-- ===========================================================================

/-- C1 (counterexample): at the demo decision node with options
`["A", "B"]`, an oracle whose raw completion decodes to the out-of-set
choice `"C"` does not make the Walker fall back to `"A"`: the loop pass
ends with the propagated `invalidChoice` error (fatal to the round),
the current node is unchanged and `steps_completed` is not
incremented — contradicting the claimed fallback transition. -/
theorem c1_fallback_counterexample :
    (roundStep genInvalid 1 (GameState.new demoTree) "hello").res
        = RoundEnd.fatal (JudgeError.invalidChoice ⟨"C", "x"⟩) ∧
      (roundStep genInvalid 1 (GameState.new demoTree) "hello").state.current_node_id
        = "START" ∧
      (roundStep genInvalid 1 (GameState.new demoTree) "hello").state.steps_completed = 0 :=
  ⟨rfl, rfl, rfl⟩

/-- C1 (amended): whenever `LLM::judge` fails — generation failure,
parse failure, or an invalid choice, all of which `judge` turns into an
error before returning — `play_round` propagates the error through the
`?` operator: the pass ends fatally with that error, with no transition
(current node unchanged) and no `steps_completed` increment. The
fallback branch of `play_round` handles only a successful judge decision
outside `next_node_ids`, which `judge`, validating against the same
list, never returns. -/
theorem c1_judge_failure_is_fatal (gen : GenOracle) (total : Nat) (s : GameState)
    (input : String) (node : GameNode) (e : JudgeError)
    (hnode : s.tree.get s.current_node_id = some node)
    (hterm : node.terminal = false)
    (hne : (rustTrim input).data.isEmpty = false)
    (hnq : eqIgnoreAsciiCase (rustTrim input) "quit" = false)
    (hnx : eqIgnoreAsciiCase (rustTrim input) "exit" = false)
    (hj : judge gen
        (build_judge_messages
          { s with conversation := s.conversation ++
              [ChatMessage.assistant node.transcript, ChatMessage.user (rustTrim input)] }
          node)
        node.next_node_ids = Except.error e) :
    (roundStep gen total s input).res = RoundEnd.fatal e ∧
      (roundStep gen total s input).state.current_node_id = s.current_node_id ∧
      (roundStep gen total s input).state.steps_completed = s.steps_completed := by
  unfold roundStep
  rw [hnode]
  simp only [List.append_assoc, List.singleton_append] at hj ⊢
  simp [hterm, hne, hnq, hnx, hj]

/-- C1 (amended, witness): a failed generation call at the demo decision
node ends the pass with the fatal `generationFailed` error and leaves
node and step count unchanged. -/
theorem c1_judge_failure_is_fatal_witness :
    (roundStep genFail 1 (GameState.new demoTree) "hello").res
        = RoundEnd.fatal JudgeError.generationFailed ∧
      (roundStep genFail 1 (GameState.new demoTree) "hello").state.current_node_id
        = (GameState.new demoTree).current_node_id ∧
      (roundStep genFail 1 (GameState.new demoTree) "hello").state.steps_completed
        = (GameState.new demoTree).steps_completed :=
  c1_judge_failure_is_fatal genFail 1 (GameState.new demoTree) "hello" demoStart
    JudgeError.generationFailed rfl rfl rfl rfl rfl rfl

/-- C5: when the trimmed player input equals a quit keyword up to ASCII
case, the pass at a decision node returns the `Quit` outcome at once:
the result holds for every generation oracle, and the recorded list of
judge calls is empty — the Judge Protocol and Generation Engine are
never invoked on that path. -/
theorem c5_quit_skips_judge (gen : GenOracle) (total : Nat) (s : GameState)
    (input : String) (node : GameNode)
    (hnode : s.tree.get s.current_node_id = some node)
    (hterm : node.terminal = false)
    (hq : eqIgnoreAsciiCase (rustTrim input) "quit" = true ∨
          eqIgnoreAsciiCase (rustTrim input) "exit" = true) :
    roundStep gen total s input =
      ⟨RoundEnd.quit,
       { s with conversation := s.conversation ++ [ChatMessage.assistant node.transcript] },
       []⟩ := by
  have hne : (rustTrim input).data.isEmpty = false := by
    rcases hq with hq | hq
    · exact eqIgnoreAsciiCase_ne_empty hq (by decide)
    · exact eqIgnoreAsciiCase_ne_empty hq (by decide)
  unfold roundStep
  rw [hnode]
  rcases hq with hq | hq <;> simp [hterm, hne, hq]

/-- C5 (witness): typing `"  QUIT "` at the demo decision node quits
immediately with zero judge calls, for an oracle that would fail if it
were consulted. -/
theorem c5_quit_skips_judge_witness :
    roundStep genFail 1 (GameState.new demoTree) "  QUIT " =
      ⟨RoundEnd.quit,
       { GameState.new demoTree with
           conversation := [ChatMessage.assistant "Passport please."] },
       []⟩ :=
  c5_quit_skips_judge genFail 1 (GameState.new demoTree) "  QUIT " demoStart
    rfl rfl (Or.inl (by decide))

/-- C6: empty (after trimming) player input at a decision node leaves
the session state exactly as it was — same current node, same step
count, and the transcript appended at the top of the pass is popped
again, so the conversation is unchanged for the re-prompting pass — and
makes no judge call. -/
theorem c6_empty_input_keeps_state (gen : GenOracle) (total : Nat) (s : GameState)
    (input : String) (node : GameNode)
    (hnode : s.tree.get s.current_node_id = some node)
    (hterm : node.terminal = false)
    (hempty : (rustTrim input).data.isEmpty = true) :
    roundStep gen total s input = ⟨RoundEnd.next, s, []⟩ := by
  unfold roundStep
  rw [hnode]
  simp [hterm, hempty, List.dropLast_concat]

/-- C6 (witness): whitespace-only input at the demo decision node hands
the exact initial state to the next pass, with zero judge calls. -/
theorem c6_empty_input_keeps_state_witness :
    roundStep genFail 1 (GameState.new demoTree) "   " =
      ⟨RoundEnd.next, GameState.new demoTree, []⟩ :=
  c6_empty_input_keeps_state genFail 1 (GameState.new demoTree) "   " demoStart
    rfl rfl rfl

/-- C7: on entering a terminal node the Walker appends the node's
transcript to the conversation as an Assistant message and returns the
`Finished` outcome carrying the node's `is_success` flag, the
accumulated `steps_completed`, the precomputed `total_steps` and the
terminal node's id; the result is the same for every player input and
every oracle (no input is consumed, no judge call is made). -/
theorem c7_terminal_entry_reports (gen : GenOracle) (total : Nat) (s : GameState)
    (input : String) (node : GameNode)
    (hnode : s.tree.get s.current_node_id = some node)
    (hterm : node.terminal = true) :
    roundStep gen total s input =
      ⟨RoundEnd.finished node.is_success s.steps_completed total node.id,
       { s with conversation := s.conversation ++ [ChatMessage.assistant node.transcript] },
       []⟩ := by
  unfold roundStep
  rw [hnode]
  simp [hterm]

/-- C7 (witness): entering the successful terminal node of the demo
scenario with 3 completed steps reports
`Finished(success = true, steps = 3, total = 7, id = "A")` and appends
the transcript. -/
theorem c7_terminal_entry_reports_witness :
    roundStep genFail 7 ⟨demoTree, "A", [], 3⟩ "ignored" =
      ⟨RoundEnd.finished true 3 7 "A",
       ⟨demoTree, "A", [ChatMessage.assistant "you pass"], 3⟩,
       []⟩ :=
  c7_terminal_entry_reports genFail 7 ⟨demoTree, "A", [], 3⟩ "ignored" demoPass rfl rfl

/-- C9: for a well-formed tree (start id present, every referenced next
id present), every state the Walker loop can reach keeps
`current_node_id` bound in the node map, so the `unwrap` inside
`GameState::current_node` never panics. -/
theorem c9_current_node_never_panics {t : GameTree} {s : GameState}
    (hwf : TreeWF t) (h : Reachable t s) :
    ∃ n, s.tree.get s.current_node_id = some n := by
  have htree := reachable_tree_eq h
  rw [htree]
  clear htree
  induction h with
  | init =>
    rcases Option.isSome_iff_exists.mp hwf.1 with ⟨n, hn⟩
    exact ⟨n, hn⟩
  | step s gen total input hr hres ih =>
    rcases roundStep_next_id gen total s input hres with heq | ⟨node, hnode, hmem⟩
    · rw [heq]; exact ih
    · have htree := reachable_tree_eq hr
      rw [htree] at hnode
      have hp := lookup_mem hnode
      have := hwf.2 (s.current_node_id, node) hp _ hmem
      exact Option.isSome_iff_exists.mp this

/-- C9 (witness): the invariant instantiated at the well-formed demo
tree and its initial state. -/
theorem c9_current_node_never_panics_witness :
    ∃ n, (GameState.new demoTree).tree.get (GameState.new demoTree).current_node_id = some n :=
  c9_current_node_never_panics (by decide) Reachable.init

/-- C8: every message list handed to `LLM::judge` during a loop pass on
a reachable state is exactly one system message — the role preamble,
then the node's optional criteria, the option listing in order
(favorable first, by construction of `next_node_ids`) and the JSON
format instruction, all concatenated by `build_judge_instruction` —
followed by the entire conversation so far (including the transcript and
player line of this turn), in which every message is an assistant or
user turn and no system message from an earlier turn appears. -/
theorem c8_judge_message_assembly (gen : GenOracle) (total : Nat) {t : GameTree}
    {s : GameState} (input : String) (node : GameNode) (msgs : List ChatMessage)
    (hr : Reachable t s)
    (hnode : s.tree.get s.current_node_id = some node)
    (hcalls : (roundStep gen total s input).calls = [msgs]) :
    msgs = ChatMessage.system (SYSTEM_PROMPT ++ " \n " ++ build_judge_instruction node) ::
        (s.conversation ++ [ChatMessage.assistant node.transcript,
                            ChatMessage.user (rustTrim input)]) ∧
      ∀ m ∈ s.conversation ++ [ChatMessage.assistant node.transcript,
                               ChatMessage.user (rustTrim input)],
        m.role = "assistant" ∨ m.role = "user" := by
  constructor
  · unfold roundStep at hcalls
    rw [hnode] at hcalls
    dsimp only at hcalls
    split at hcalls
    · simp at hcalls
    · split at hcalls
      · simp at hcalls
      · split at hcalls
        · simp at hcalls
        · split at hcalls
          · simp at hcalls
            rw [← hcalls]
            simp [build_judge_messages, List.append_assoc]
          · split at hcalls
            · split at hcalls
              · simp at hcalls
                rw [← hcalls]
                simp [build_judge_messages, List.append_assoc]
              · simp at hcalls
                rw [← hcalls]
                simp [build_judge_messages, List.append_assoc]
            · simp at hcalls
              rw [← hcalls]
              simp [build_judge_messages, List.append_assoc]
  · intro m hm
    rcases List.mem_append.mp hm with hmc | hmc
    · exact reachable_conv_roles hr m hmc
    · rcases List.mem_cons.mp hmc with hh | hh
      · subst hh; exact Or.inl rfl
      · rw [List.mem_singleton] at hh; subst hh; exact Or.inr rfl

/-- C8 (witness): the single judge call of a judged pass from the demo
initial state carries the system message followed by the transcript and
the player line, all of the tail being assistant/user turns. -/
theorem c8_judge_message_assembly_witness :
    (build_judge_messages
        ⟨demoTree, "START",
          [ChatMessage.assistant "Passport please.", ChatMessage.user "hello"], 0⟩ demoStart)
      = ChatMessage.system (SYSTEM_PROMPT ++ " \n " ++ build_judge_instruction demoStart) ::
          ((GameState.new demoTree).conversation ++
            [ChatMessage.assistant demoStart.transcript, ChatMessage.user (rustTrim "hello")]) ∧
      ∀ m ∈ (GameState.new demoTree).conversation ++
            [ChatMessage.assistant demoStart.transcript, ChatMessage.user (rustTrim "hello")],
        m.role = "assistant" ∨ m.role = "user" :=
  c8_judge_message_assembly genPass 1 "hello" demoStart _ Reachable.init rfl rfl

/-- C2 (counterexample): the claim promises the parse result is
independent of arbitrary surrounding prose, but prose containing a flat
brace span before the JSON object shifts the leftmost regex match: on
`"\x7boops\x7d \x7b..object..\x7d"` parsing returns `MalformedJson`
instead of the object's values. -/
theorem c2_prose_brace_counterexample :
    parse_decision "\x7boops\x7d \x7b\"decision\": \"A\", \"reason\": \"B\"\x7d"
        = Except.error ParseError.MalformedJson ∧
      parse_decision "\x7boops\x7d \x7b\"decision\": \"A\", \"reason\": \"B\"\x7d"
        ≠ Except.ok ⟨"A", "B"⟩ := by
  have h1 : parse_decision "\x7boops\x7d \x7b\"decision\": \"A\", \"reason\": \"B\"\x7d"
      = Except.error ParseError.MalformedJson := rfl
  exact ⟨h1, fun h => by rw [h1] at h; cases h⟩

/-- C2 (amended): for every raw string whose think-stripped text splits
as brace-free prose, then a flat JSON span parsing to an object with
string members `decision` and `reason` (extra members allowed, keys
distinct), then arbitrary trailing text, `parse_decision` returns
exactly that object's `decision` and `reason` values. Text inside
think-blocks and after the object is arbitrary; text before the object
must be brace-free (the counterexample shows a flat brace span there
changes the result). -/
theorem c2_parse_extracts_object (raw : String) (a mid b : List Char)
    (fields : List (String × JsonVal)) (d r : String)
    (hstrip : stripThink raw.data = a ++ openBrace :: (mid ++ closeBrace :: b))
    (ha : braceFree a) (hmid : braceFree mid)
    (hparse : parseObjectTop (openBrace :: (mid ++ [closeBrace])) = some fields)
    (hnodup : (fields.map Prod.fst).Nodup)
    (hdec : ("decision", JsonVal.str d) ∈ fields)
    (hreas : ("reason", JsonVal.str r) ∈ fields) :
    parse_decision raw = Except.ok ⟨d, r⟩ := by
  unfold parse_decision
  dsimp only
  rw [hstrip, findFlat_first ha hmid]
  dsimp only
  unfold parseLlmDecision
  rw [hparse]
  dsimp only
  rw [toDecision_of_mem hnodup hdec hreas]

/-- C2 (amended, witness): the specification's own example — a think
block, prose, the object, trailing prose — parses to
`(PASSPORT_CHECK, Cooperated)`. -/
theorem c2_parse_extracts_object_witness :
    parse_decision
        "<think>reasoning</think>\nHere: \x7b\"decision\":\"PASSPORT_CHECK\",\"reason\":\"Cooperated\"\x7d. Done."
      = Except.ok ⟨"PASSPORT_CHECK", "Cooperated"⟩ :=
  c2_parse_extracts_object _ "\nHere: ".data
    "\"decision\":\"PASSPORT_CHECK\",\"reason\":\"Cooperated\"".data ". Done.".data
    [("decision", JsonVal.str "PASSPORT_CHECK"), ("reason", JsonVal.str "Cooperated")]
    "PASSPORT_CHECK" "Cooperated" rfl (by decide) (by decide) rfl (by decide)
    (List.Mem.head _) (List.Mem.tail _ (List.Mem.head _))

/-- C3: the error taxonomy of `parse_decision` — (1) if the
think-stripped text has no flat brace span, the error is `NoJsonFound`;
(2) if the first flat span parses as a JSON object that is missing the
`decision` or `reason` member or carries a non-string value for one of
them, the error is `MalformedJson`; (3) if the first flat span
deserialises to an `LlmDecision` (flat object, string fields, no
duplicates), parsing succeeds with exactly those values. -/
theorem c3_error_taxonomy :
    (∀ raw : String, findFlat (stripThink raw.data) = none →
        parse_decision raw = Except.error ParseError.NoJsonFound) ∧
    (∀ (raw : String) (j : List Char) (fields : List (String × JsonVal)),
        findFlat (stripThink raw.data) = some j →
        parseObjectTop j = some fields →
        ("decision" ∉ fields.map Prod.fst ∨ "reason" ∉ fields.map Prod.fst ∨
          ∃ k v, (k = "decision" ∨ k = "reason") ∧ (k, v) ∈ fields ∧ strVal v = none) →
        parse_decision raw = Except.error ParseError.MalformedJson) ∧
    (∀ (raw : String) (j : List Char) (dec : LlmDecision),
        findFlat (stripThink raw.data) = some j →
        parseLlmDecision j = some dec →
        parse_decision raw = Except.ok dec) := by
  refine ⟨fun raw hnone => ?_, fun raw j fields hfind hparse hbad => ?_,
    fun raw j dec hfind hparse => ?_⟩
  · unfold parse_decision
    dsimp only
    rw [hnone]
  · unfold parse_decision
    dsimp only
    rw [hfind]
    dsimp only
    unfold parseLlmDecision
    rw [hparse]
    dsimp only
    rw [toDecision_none hbad]
  · unfold parse_decision
    dsimp only
    rw [hfind]
    dsimp only
    rw [hparse]

/-- C3 (witness): the taxonomy at three concrete raw outputs — no brace
span at all, a number-typed `decision` field, and a well-formed object. -/
theorem c3_error_taxonomy_witness :
    parse_decision "no json here" = Except.error ParseError.NoJsonFound ∧
      parse_decision "\x7b\"decision\": 5, \"reason\": \"B\"\x7d"
        = Except.error ParseError.MalformedJson ∧
      parse_decision "\x7b\"decision\": \"A\", \"reason\": \"B\"\x7d"
        = Except.ok ⟨"A", "B"⟩ :=
  ⟨c3_error_taxonomy.1 _ rfl,
   c3_error_taxonomy.2.1 _ _ [("decision", JsonVal.num ['5']), ("reason", JsonVal.str "B")]
     rfl rfl
     (Or.inr (Or.inr ⟨"decision", JsonVal.num ['5'], Or.inl rfl, List.Mem.head _, rfl⟩)),
   c3_error_taxonomy.2.2 _ _ ⟨"A", "B"⟩ rfl rfl⟩

/-- C10: a flat JSON object whose members include string fields
`decision` and `reason` plus any additional members (any keys other
than the two, any value shapes) deserialises successfully to exactly
the `decision` and `reason` values — unknown fields are skipped, not
rejected. -/
theorem c10_extra_fields_tolerated (raw : String) (j : List Char)
    (fields : List (String × JsonVal)) (d r : String)
    (hfind : findFlat (stripThink raw.data) = some j)
    (hparse : parseObjectTop j = some fields)
    (hnodup : (fields.map Prod.fst).Nodup)
    (hdec : ("decision", JsonVal.str d) ∈ fields)
    (hreas : ("reason", JsonVal.str r) ∈ fields) :
    parse_decision raw = Except.ok ⟨d, r⟩ := by
  unfold parse_decision
  dsimp only
  rw [hfind]
  dsimp only
  unfold parseLlmDecision
  rw [hparse]
  dsimp only
  rw [toDecision_of_mem hnodup hdec hreas]

/-- C10 (witness): an object carrying two extra members (a number and a
null) around the required fields still parses to `(A, B)`. -/
theorem c10_extra_fields_tolerated_witness :
    parse_decision "\x7b\"decision\": \"A\", \"confidence\": 3, \"reason\": \"B\", \"note\": null\x7d"
      = Except.ok ⟨"A", "B"⟩ :=
  c10_extra_fields_tolerated _ _
    [("decision", JsonVal.str "A"), ("confidence", JsonVal.num ['3']),
     ("reason", JsonVal.str "B"), ("note", JsonVal.null)]
    "A" "B" rfl rfl (by decide) (List.Mem.head _)
    (List.Mem.tail _ (List.Mem.tail _ (List.Mem.head _)))

/-- C4: under the structural invariants of the spec (every next id of a
decision node resolves, decision nodes offer at least one option — the
favorable-first authoring convention) and acyclicity of the decision
edges, expressed by a rank function that strictly decreases along every
decision edge (equivalent, on a finite graph, to the absence of
Decision-edge cycles), `total_steps` stabilises: one value `v` is
returned for every fuel beyond the start rank (the Rust recursion
terminates with value `v`), and `v` is the maximum number of decision
nodes on any path from the start node to a terminal node. -/
theorem c4_total_steps (t : GameTree) (rank : String → Nat) (node : GameNode)
    (hrank : ∀ p ∈ t.nodes, p.2.terminal = false → ∀ c ∈ p.2.next_node_ids, rank c < rank p.1)
    (hclosed : ∀ p ∈ t.nodes, p.2.terminal = false →
        p.2.next_node_ids ≠ [] ∧ ∀ c ∈ p.2.next_node_ids, (t.get c).isSome = true)
    (hstart : t.get t.start_node_id = some node) :
    ∃ v, (∀ fuel, rank t.start_node_id < fuel → total_steps t fuel = some v) ∧
      PathTo t t.start_node_id v ∧ ∀ k, PathTo t t.start_node_id k → k ≤ v := by
  obtain ⟨v, h1, h2, h3⟩ :=
    longest_path_spec t rank hrank hclosed (rank t.start_node_id + 1) t.start_node_id node
      (Nat.lt_succ_self _) hstart
  exact ⟨v, fun fuel hf => h1 fuel hf, h2, h3⟩

/-- C4 (witness): on the demo tree with rank 1 for the start node and 0
elsewhere, the stabilised value exists and bounds every path. -/
theorem c4_total_steps_witness :
    ∃ v, (∀ fuel, demoRank demoTree.start_node_id < fuel → total_steps demoTree fuel = some v) ∧
      PathTo demoTree demoTree.start_node_id v ∧
      ∀ k, PathTo demoTree demoTree.start_node_id k → k ≤ v :=
  c4_total_steps demoTree demoRank demoStart (by decide) (by decide) rfl

end Elsa
